import Mathlib

/-!
# Verification of the isolation game-playing agent (`game_agent.py`)

This file gives a shallow embedding of the search engine implemented in
`src/game_agent.py` (class `CustomPlayer`): fixed-depth minimax, fixed-depth
alpha-beta pruning, the root-level move-recovery loop of `alphabeta`, and the
iterative-deepening driver `get_move`, together with the time-budget
(`time_left` / `TIMER_THRESHOLD`) cancellation plumbing (`Timeout`).

Modelling conventions:

* Python floats used as utilities (heuristic scores together with the
  `float("-inf")` / `float("inf")` sentinels) are modelled by
  `Util := WithBot (WithTop ℚ)`, a linear order with a bottom and a top.
* The board (`isolation.Board`) is an external collaborator; it is modelled by
  the interface structure `GameI` giving exactly the operations the engine
  calls: `get_legal_moves`, `forecast_move`, `active_player`,
  `inactive_player`, `move_count`, `height`, `width`, and additionally the
  `counter` attribute probed by `hasattr(game, 'counter')` /
  `game.counter[move] -= 1` inside `alphabeta`'s recovery loop (modelled by
  `hasCounter` and `decCounter`; in-place mutation is modelled by threading
  the updated state through and returning it).
* The `time_left` callable is modelled as an oracle `t : ℕ → ℚ` giving the
  reading returned by the k-th query, with the query counter `k` threaded
  explicitly.  `raise Timeout()` is modelled with `Except Unit`.
* `depth` is an `int` in Python but every call site uses non-negative values;
  it is modelled as `ℕ`.  The helpers' guards `depth <= 0` (minimax) and
  `depth == 0` (alphabeta) coincide on `ℕ`, and `depth - 1` at `depth = 0`
  is `0`, matching the Python behaviour of `min_value(game, -1)` which also
  evaluates the heuristic immediately.
* Functions suffixed `T` are the timed (instrumented) versions including the
  `time_left` checks exactly where the Python performs them; the unsuffixed
  search functions are the pure value semantics (the behaviour when no
  `Timeout` fires), used to state value-level properties.
-/

/-- Utility values: rationals extended with `-∞` (`⊥`) and `+∞` (`⊤`),
modelling Python floats with the infinity sentinels. -/
abbrev Util : Type := WithBot (WithTop ℚ)

/-- A finite utility value. -/
def Util.ofRat (q : ℚ) : Util := ((q : WithTop ℚ) : Util)

/-- The `method` constructor argument of `CustomPlayer`
(`{'minimax', 'alphabeta'}`). -/
inductive Method : Type
  | minimax : Method
  | alphabeta : Method
deriving DecidableEq, Repr

/-- Interface of the external `isolation.Board` collaborator: exactly the
operations `game_agent.py` invokes on a game state.  `σ` is the state type,
`μ` the move type, `π` the player type.  `hasCounter`/`decCounter` model the
optional `counter` attribute that `alphabeta`'s recovery loop decrements
(`if hasattr(game, 'counter'): game.counter[move] -= 1`). -/
structure GameI (σ μ π : Type) where
  get_legal_moves : σ → List μ
  forecast_move : σ → μ → σ
  active_player : σ → π
  inactive_player : σ → π
  move_count : σ → ℕ
  height : σ → ℕ
  width : σ → ℕ
  hasCounter : σ → Bool
  decCounter : σ → μ → σ

/-- Configuration of a `CustomPlayer` instance: `search_depth`, `score_fn`,
`iterative`, `method`, `timeout` (stored as `TIMER_THRESHOLD`). -/
structure CustomPlayer (σ π : Type) where
  search_depth : ℕ
  score : σ → π → Util
  iterative : Bool
  method : Method
  TIMER_THRESHOLD : ℚ

variable {σ μ π : Type}

/-! ## Pure minimax helpers (`CustomPlayer.max_value` / `CustomPlayer.min_value`)

Value semantics of the recursive helpers when no `Timeout` fires (the timed
versions below add the `time_left` check these functions perform on entry).
The pair of mutually recursive functions is defined by a single structural
recursion on the depth returning the pair (max-side, min-side). -/

/-- The pair (`max_value`, `min_value`) at a given depth, by structural
recursion on the depth.  At depth `0`, `max_value` evaluates the heuristic
from the active player's perspective and `min_value` from the inactive
player's; otherwise each folds `max`/`min` over the children exactly as the
Python `for` loops do (`utility = max(utility, self.min_value(new_game,
depth-1))` starting from `float("-inf")`, dually for `min`). -/
def mmPair (G : GameI σ μ π) (P : CustomPlayer σ π) : ℕ → (σ → Util) × (σ → Util)
  | 0 =>
    (fun s => P.score s (G.active_player s),
     fun s => P.score s (G.inactive_player s))
  | e + 1 =>
    let prev := mmPair G P e
    (fun s => (G.get_legal_moves s).foldl
        (fun u m => max u (prev.2 (G.forecast_move s m))) ⊥,
     fun s => (G.get_legal_moves s).foldl
        (fun u m => min u (prev.1 (G.forecast_move s m))) ⊤)

/-- `CustomPlayer.max_value` (pure value semantics). -/
def max_value (G : GameI σ μ π) (P : CustomPlayer σ π) (s : σ) (d : ℕ) : Util :=
  (mmPair G P d).1 s

/-- `CustomPlayer.min_value` (pure value semantics). -/
def min_value (G : GameI σ μ π) (P : CustomPlayer σ π) (s : σ) (d : ℕ) : Util :=
  (mmPair G P d).2 s

/-- Python's `max(iterable, key=lambda x: x[0])` on a non-empty list,
seeded with the first element: iterates keeping the current maximum and
replaces it only on a strictly greater key, hence returns the first
(earliest) maximal element. -/
def pyMax (p : Util × μ) (l : List (Util × μ)) : Util × μ :=
  l.foldl (fun best q => if best.1 < q.1 then q else best) p

/-- `CustomPlayer.minimax` (pure value semantics, no `Timeout`): builds the
list `utilities` of `(min_value(forecast(move), depth-1), move)` pairs over
the legal moves, returns `(0, None)` when it is empty and otherwise the
maximal pair under the first-seen tie-break of Python's `max`. -/
def minimax (G : GameI σ μ π) (P : CustomPlayer σ π) (s : σ) (d : ℕ) :
    Util × Option μ :=
  match (G.get_legal_moves s).map
      (fun m => (min_value G P (G.forecast_move s m) (d - 1), m)) with
  | [] => (Util.ofRat 0, none)
  | q :: qs =>
    let r := pyMax q qs
    (r.1, some r.2)

/-! ## Pure alpha-beta helpers (`alphabeta_max_value` / `alphabeta_min_value`)

The inner helpers of `CustomPlayer.alphabeta` perform no `time_left` checks
in the source; these definitions are their exact semantics. -/

/-- The `for` loop of `alphabeta_max_value`: running `utility` and `alpha`,
beta cutoff `if utility >= beta: return utility` before the `alpha` update. -/
def ab_max_loop (G : GameI σ μ π) (child : σ → Util → Util → Util) (s : σ)
    (b : Util) : List μ → Util → Util → Util
  | [], u, _ => u
  | m :: ms, u, a =>
    let u' := max u (child (G.forecast_move s m) a b)
    if b ≤ u' then u' else ab_max_loop G child s b ms u' (max a u')

/-- The `for` loop of `alphabeta_min_value`: running `utility` and `beta`,
alpha cutoff `if utility <= alpha: return utility` before the `beta` update. -/
def ab_min_loop (G : GameI σ μ π) (child : σ → Util → Util → Util) (s : σ)
    (a : Util) : List μ → Util → Util → Util
  | [], u, _ => u
  | m :: ms, u, b =>
    let u' := min u (child (G.forecast_move s m) a b)
    if u' ≤ a then u' else ab_min_loop G child s a ms u' (min b u')

/-- The pair (`alphabeta_max_value`, `alphabeta_min_value`) at a given depth,
by structural recursion on the depth (each side at depth `e+1` loops over the
children calling the other side at depth `e`). -/
def abPair (G : GameI σ μ π) (P : CustomPlayer σ π) :
    ℕ → (σ → Util → Util → Util) × (σ → Util → Util → Util)
  | 0 =>
    (fun s _ _ => P.score s (G.active_player s),
     fun s _ _ => P.score s (G.inactive_player s))
  | e + 1 =>
    let prev := abPair G P e
    (fun s a b => ab_max_loop G prev.2 s b (G.get_legal_moves s) ⊥ a,
     fun s a b => ab_min_loop G prev.1 s a (G.get_legal_moves s) ⊤ b)

/-- `alphabeta_max_value` (the inner helper of `CustomPlayer.alphabeta`). -/
def alphabeta_max_value (G : GameI σ μ π) (P : CustomPlayer σ π) (s : σ)
    (d : ℕ) (a b : Util) : Util :=
  (abPair G P d).1 s a b

/-- `alphabeta_min_value` (the inner helper of `CustomPlayer.alphabeta`). -/
def alphabeta_min_value (G : GameI σ μ π) (P : CustomPlayer σ π) (s : σ)
    (d : ℕ) (a b : Util) : Util :=
  (abPair G P d).2 s a b

/-- The root-level move-recovery loop of `CustomPlayer.alphabeta`
(lines 302-311): for each legal move, forecast, decrement `game.counter[move]`
when the attribute exists (state mutation, modelled by threading the updated
state), score the forecast state from the perspective of **its** active
player, and select the first move whose score equals the root utility.
Returns the selected move (possibly `none`) and the final state. -/
def ab_recover (G : GameI σ μ π) (P : CustomPlayer σ π) (u : Util) :
    List μ → σ → Option μ × σ
  | [], s => (none, s)
  | m :: ms, s =>
    let c := G.forecast_move s m
    let s' := if G.hasCounter s then G.decCounter s m else s
    if u = P.score c (G.active_player c) then (some m, s')
    else ab_recover G P u ms s'

/-- `CustomPlayer.alphabeta` after its root `time_left` check (pure part):
computes the root utility with `alphabeta_max_value(game, depth, alpha, beta)`
and recovers the move with the re-scoring loop.  Returns
`((utility, selected_move), final_state)`; the state component records the
`game.counter` mutations performed by the recovery loop. -/
def alphabetaF (G : GameI σ μ π) (P : CustomPlayer σ π) (s : σ) (d : ℕ)
    (a b : Util) : (Util × Option μ) × σ :=
  let u := alphabeta_max_value G P s d a b
  let r := ab_recover G P u (G.get_legal_moves s) s
  ((u, r.1), r.2)

/-! ## Timed (instrumented) search: the `time_left` / `Timeout` plumbing

The `time_left` callable is an oracle `t : ℕ → ℚ` giving the reading of the
k-th query; a check `if self.time_left() < self.TIMER_THRESHOLD: raise
Timeout()` consumes one query.  Results are `Except Unit v × ℕ`: the raised
`Timeout` (`Except.error ()`) or the value, together with the query counter
after the call. -/

/-- The monadic `for` loop body of the timed `max_value`: fold `max` over the
children, propagating a raised `Timeout` from the recursive `min_value`. -/
def mm_fold_maxT (G : GameI σ μ π) (child : σ → ℕ → Except Unit Util × ℕ)
    (s : σ) : List μ → Util → ℕ → Except Unit Util × ℕ
  | [], u, k => (Except.ok u, k)
  | m :: ms, u, k =>
    match child (G.forecast_move s m) k with
    | (Except.error e, k') => (Except.error e, k')
    | (Except.ok v, k') => mm_fold_maxT G child s ms (max u v) k'

/-- The monadic `for` loop body of the timed `min_value`, dually. -/
def mm_fold_minT (G : GameI σ μ π) (child : σ → ℕ → Except Unit Util × ℕ)
    (s : σ) : List μ → Util → ℕ → Except Unit Util × ℕ
  | [], u, k => (Except.ok u, k)
  | m :: ms, u, k =>
    match child (G.forecast_move s m) k with
    | (Except.error e, k') => (Except.error e, k')
    | (Except.ok v, k') => mm_fold_minT G child s ms (min u v) k'

/-- The pair of timed (`max_value`, `min_value`) helpers at a given depth:
each performs the `time_left` check on entry (consuming one oracle query and
raising `Timeout` when the reading is below `TIMER_THRESHOLD`), then either
evaluates the heuristic (depth 0) or folds over the children at depth one
less. -/
def mmPairT (G : GameI σ μ π) (P : CustomPlayer σ π) (t : ℕ → ℚ) :
    ℕ → (σ → ℕ → Except Unit Util × ℕ) × (σ → ℕ → Except Unit Util × ℕ)
  | 0 =>
    (fun s k => if t k < P.TIMER_THRESHOLD then (Except.error (), k + 1)
      else (Except.ok (P.score s (G.active_player s)), k + 1),
     fun s k => if t k < P.TIMER_THRESHOLD then (Except.error (), k + 1)
      else (Except.ok (P.score s (G.inactive_player s)), k + 1))
  | e + 1 =>
    let prev := mmPairT G P t e
    (fun s k => if t k < P.TIMER_THRESHOLD then (Except.error (), k + 1)
      else mm_fold_maxT G prev.2 s (G.get_legal_moves s) ⊥ (k + 1),
     fun s k => if t k < P.TIMER_THRESHOLD then (Except.error (), k + 1)
      else mm_fold_minT G prev.1 s (G.get_legal_moves s) ⊤ (k + 1))

/-- Timed `CustomPlayer.max_value`. -/
def max_valueT (G : GameI σ μ π) (P : CustomPlayer σ π) (t : ℕ → ℚ) (s : σ)
    (d k : ℕ) : Except Unit Util × ℕ :=
  (mmPairT G P t d).1 s k

/-- Timed `CustomPlayer.min_value`. -/
def min_valueT (G : GameI σ μ π) (P : CustomPlayer σ π) (t : ℕ → ℚ) (s : σ)
    (d k : ℕ) : Except Unit Util × ℕ :=
  (mmPairT G P t d).2 s k

/-- The root `for` loop of `CustomPlayer.minimax` inside its
`try/except Timeout`: appends `(min_value(forecast(move), depth-1), move)`
per legal move and stops collecting (catching the exception) on `Timeout`. -/
def mm_rootT (G : GameI σ μ π) (child : σ → ℕ → Except Unit Util × ℕ)
    (s : σ) : List μ → List (Util × μ) → ℕ → List (Util × μ) × ℕ
  | [], acc, k => (acc, k)
  | m :: ms, acc, k =>
    match child (G.forecast_move s m) k with
    | (Except.error _, k') => (acc, k')
    | (Except.ok v, k') => mm_rootT G child s ms (acc ++ [(v, m)]) k'

/-- Timed `CustomPlayer.minimax`: never raises `Timeout` itself (its root
loop catches it); returns `(0, None)` when no child finished, otherwise the
first-seen maximal `(utility, move)` pair. -/
def minimaxT (G : GameI σ μ π) (P : CustomPlayer σ π) (t : ℕ → ℚ) (s : σ)
    (d k : ℕ) : (Util × Option μ) × ℕ :=
  match mm_rootT G (fun c k' => min_valueT G P t c (d - 1) k') s
      (G.get_legal_moves s) [] k with
  | ([], k') => ((Util.ofRat 0, none), k')
  | (q :: qs, k') =>
    let r := pyMax q qs
    ((r.1, some r.2), k')

/-- Timed `CustomPlayer.alphabeta`: performs the `time_left` check at the
root (the ONLY check in the whole call — the inner `alphabeta_max_value` /
`alphabeta_min_value` helpers and the recovery loop contain none), then runs
the pure search and recovery. -/
def alphabetaT (G : GameI σ μ π) (P : CustomPlayer σ π) (t : ℕ → ℚ) (s : σ)
    (d : ℕ) (a b : Util) (k : ℕ) :
    Except Unit ((Util × Option μ) × σ) × ℕ :=
  if t k < P.TIMER_THRESHOLD then (Except.error (), k + 1)
  else (Except.ok (alphabetaF G P s d a b), k + 1)

/-! ## The move-selection driver `CustomPlayer.get_move`

At this level moves are concrete board coordinates `ℤ × ℤ` (the no-move
sentinel is `(-1, -1)`); the returned "Python value" is an `Option (ℤ × ℤ)`
(`none` models Python's `None`, possible in the non-iterative branch). -/

/-- Result of `get_move`: either the bounded model ran out of fuel while the
Python `while True` loop was still running (`fuelOut` — the loop itself has
no exit other than `Timeout`), or the function returned a value. -/
inductive GRes : Type
  | fuelOut : GRes
  | ret : Option (ℤ × ℤ) → GRes
deriving DecidableEq, Repr

/-- Outcome of the iterative-deepening `while True` loop: it only terminates
by raising `Timeout` (to be caught by `get_move`'s handler), carrying the
`selected_move` at raise time; `fuelOut` is the bounded-model artifact. -/
inductive LoopRes : Type
  | fuelOut : LoopRes
  | raised : Option (ℤ × ℤ) → LoopRes
deriving DecidableEq, Repr

/-- `CustomPlayer.get_best_move`: dispatches on `method` and returns the
move component, together with the (possibly counter-mutated) state and the
query counter; a `Timeout` raised by `alphabeta` propagates (`minimax`
never raises). -/
def get_best_moveT (G : GameI σ (ℤ × ℤ) π) (P : CustomPlayer σ π)
    (t : ℕ → ℚ) (s : σ) (d k : ℕ) :
    Except Unit (Option (ℤ × ℤ)) × σ × ℕ :=
  match P.method with
  | Method.minimax =>
    match minimaxT G P t s d k with
    | ((_, mv), k') => (Except.ok mv, s, k')
  | Method.alphabeta =>
    match alphabetaT G P t s d ⊥ ⊤ k with
    | (Except.error e, k') => (Except.error e, s, k')
    | (Except.ok ((_, mv), s'), k') => (Except.ok mv, s', k')

/-- The `while True` loop of `get_move` under iterative deepening
(lines 128-135): increment `depth`, call `get_best_move` (a raised `Timeout`
propagates out of the loop), keep `temp` when it is not `None`, then check
`time_left()` and raise `Timeout` when below threshold.  Also records, per
iteration, the depth at which the search was invoked (the trace, second
component). -/
def get_move_loop (G : GameI σ (ℤ × ℤ) π) (P : CustomPlayer σ π)
    (t : ℕ → ℚ) : ℕ → σ → ℕ → Option (ℤ × ℤ) → ℕ → LoopRes × List ℕ
  | 0, _, _, _, _ => (LoopRes.fuelOut, [])
  | fuel + 1, s, d, sel, k =>
    match get_best_moveT G P t s (d + 1) k with
    | (Except.error _, _, _) => (LoopRes.raised sel, [d + 1])
    | (Except.ok temp, s', k') =>
      let sel' := match temp with
        | none => sel
        | some m => some m
      if t k' < P.TIMER_THRESHOLD then (LoopRes.raised sel', [d + 1])
      else
        let r := get_move_loop G P t fuel s' (d + 1) sel' (k' + 1)
        (r.1, (d + 1) :: r.2)

/-- `CustomPlayer.get_move`.  The outer `Except Unit` records whether a
`Timeout` escapes the call: the body's `try/except Timeout: pass` converts
every raised `Timeout` into returning the current `selected_move`, so every
branch ends in `Except.ok`.  Returns the result together with the trace of
depths at which the loop invoked `get_best_move`. -/
def get_move (G : GameI σ (ℤ × ℤ) π) (P : CustomPlayer σ π) (t : ℕ → ℚ)
    (s : σ) (legal_moves : List (ℤ × ℤ)) (fuel : ℕ) :
    Except Unit GRes × List ℕ :=
  match legal_moves with
  | [] => (Except.ok (GRes.ret (some (-1, -1))), [])
  | _ :: _ =>
    if G.move_count s = 0 then
      (Except.ok (GRes.ret (some ((G.height s / 2 : ℕ), (G.width s / 2 : ℕ)))), [])
    else if P.iterative then
      match get_move_loop G P t fuel s (P.search_depth + 1) (some (-1, -1)) 0 with
      | (LoopRes.fuelOut, tr) => (Except.ok GRes.fuelOut, tr)
      | (LoopRes.raised sel, tr) => (Except.ok (GRes.ret sel), tr)
    else
      match get_best_moveT G P t s P.search_depth 0 with
      | (Except.error _, _, _) => (Except.ok (GRes.ret (some (-1, -1))), [])
      | (Except.ok mv, _, _) => (Except.ok (GRes.ret mv), [])

/-! ## Concrete test boards

A small concrete instantiation of the `isolation.Board` interface used for
the concrete counterexamples and witnesses: a state is the history of moves
played (most recent first) plus the optional `counter` attribute; legal moves
are given by a pluggable function of the history, `forecast_move` prepends
the move, and players (`Bool`) alternate with the parity of the history
length. -/

/-- Concrete board state: move history (most recent first), whether the
`counter` attribute exists, and its association list. -/
structure CB : Type where
  hist : List (ℤ × ℤ)
  ctrOn : Bool
  ctr : List ((ℤ × ℤ) × ℤ)
deriving DecidableEq, Repr

/-- Concrete `GameI` instance over `CB` with pluggable legal-move function. -/
def mkGame (lmf : List (ℤ × ℤ) → List (ℤ × ℤ)) : GameI CB (ℤ × ℤ) Bool where
  get_legal_moves s := lmf s.hist
  forecast_move s m := { s with hist := m :: s.hist }
  active_player s := s.hist.length % 2 == 0
  inactive_player s := !(s.hist.length % 2 == 0)
  move_count s := s.hist.length
  height _ := 7
  width _ := 7
  hasCounter s := s.ctrOn
  decCounter s m :=
    { s with ctr := s.ctr.map (fun p => if p.1 = m then (p.1, p.2 - 1) else p) }

/-! ## Concrete scenarios

Shared concrete instantiations used by the counterexamples and witnesses. -/

/-- A start state one move into the game (`move_count = 1`), no `counter`. -/
def sStart : CB := { hist := [(9, 9)], ctrOn := false, ctr := [] }

/-- Board where every position has the single legal move `(0,0)` (a chain). -/
def chainG : GameI CB (ℤ × ℤ) Bool := mkGame (fun _ => [(0, 0)])

/-- Board with no legal moves anywhere. -/
def noMoveG : GameI CB (ℤ × ℤ) Bool := mkGame (fun _ => [])

/-- Board where every position has the two legal moves `(0,0)`, `(1,1)`. -/
def pairG : GameI CB (ℤ × ℤ) Bool := mkGame (fun _ => [(0, 0), (1, 1)])

/-- Board where every position has three legal moves `(0,0)`, `(1,1)`, `(2,2)`. -/
def tripleG : GameI CB (ℤ × ℤ) Bool := mkGame (fun _ => [(0, 0), (1, 1), (2, 2)])

/-- Constant heuristic. -/
def constScore : CB → Bool → Util := fun _ _ => Util.ofRat 1

/-- Heuristic valuing every state at `99` from its active player's
perspective and `5` from its inactive player's. -/
def perspScore : CB → Bool → Util := fun s p =>
  if p = (s.hist.length % 2 == 0) then Util.ofRat 99 else Util.ofRat 5

/-- Heuristic depending only on the move that led to the state (the head of
the history): from the mover's (inactive player's) perspective `(0,0) ↦ 2`
and other moves `↦ 5` (the A=2, B=5, C=5 scenario of the spec); from the
active player's perspective `(0,0) ↦ 5` and other moves `↦ 9`. -/
def tieScore : CB → Bool → Util := fun s p =>
  if p = (s.hist.length % 2 == 0) then
    (if s.hist.head? = some (0, 0) then Util.ofRat 5 else Util.ofRat 9)
  else
    (if s.hist.head? = some (0, 0) then Util.ofRat 2 else Util.ofRat 5)

/-- Heuristic depending only on the first move of the search (the
second-to-last entry of the history): `5` if it was `(1,1)`, else `1`. -/
def rootMoveScore : CB → Bool → Util := fun s _ =>
  if s.hist.reverse.get? 1 = some (1, 1) then Util.ofRat 5 else Util.ofRat 1

/-- Minimax player, `search_depth = 3`, constant heuristic, threshold `10`. -/
def mmP : CustomPlayer CB Bool :=
  { search_depth := 3, score := constScore, iterative := true,
    method := Method.minimax, TIMER_THRESHOLD := 10 }

/-- Alpha-beta player, `search_depth = 3`, constant heuristic, threshold `10`. -/
def abP : CustomPlayer CB Bool :=
  { search_depth := 3, score := constScore, iterative := true,
    method := Method.alphabeta, TIMER_THRESHOLD := 10 }

/-- Alpha-beta player with the perspective-splitting heuristic. -/
def perspP : CustomPlayer CB Bool :=
  { search_depth := 3, score := perspScore, iterative := true,
    method := Method.alphabeta, TIMER_THRESHOLD := 10 }

/-- Alpha-beta player with the tie-break scenario heuristic. -/
def tieP : CustomPlayer CB Bool :=
  { search_depth := 3, score := tieScore, iterative := true,
    method := Method.alphabeta, TIMER_THRESHOLD := 10 }

/-- Minimax player, `search_depth = 1`, root-move heuristic. -/
def rootMoveP : CustomPlayer CB Bool :=
  { search_depth := 1, score := rootMoveScore, iterative := true,
    method := Method.minimax, TIMER_THRESHOLD := 10 }

/-- Oracle with plenty of time forever. -/
def tGood : ℕ → ℚ := fun _ => 100

/-- Oracle already below every threshold on every query. -/
def tDead : ℕ → ℚ := fun _ => 0

/-- Oracle whose first reading is fine and all later ones exhausted. -/
def tOnce : ℕ → ℚ := fun k => if k = 0 then 100 else 0

/-- Oracle good for the first 12 queries, exhausted afterwards. -/
def tTwelve : ℕ → ℚ := fun k => if k < 12 then 100 else 0

/-- Oracle good for the first 30 queries, exhausted afterwards. -/
def tThirty : ℕ → ℚ := fun k => if k < 30 then 100 else 0

/-- A start state like `sStart` but carrying a `counter` attribute mapping
move `(0,0)` to `3`. -/
def sCtr : CB := { hist := [(9, 9)], ctrOn := true, ctr := [((0, 0), 3)] }

/-- Whether an `Except`-valued result is a normal return (no escaped
`Timeout`). -/
def timeoutCaught : Except Unit GRes → Bool
  | Except.ok _ => true
  | Except.error _ => false

/-! ## Theorems -/

/-- Claim C8 (confirmed): for every state whose legal-move list is empty,
`get_move` returns the no-move sentinel `(-1, -1)` immediately — for every
board, player configuration (algorithm, depth, iterative-deepening flag),
time oracle and fuel: the `if not legal_moves` check precedes everything
else, so no search is invoked (the depth trace is empty). -/
theorem get_move_empty_returns_sentinel (G : GameI σ (ℤ × ℤ) π)
    (P : CustomPlayer σ π) (t : ℕ → ℚ) (s : σ) (fuel : ℕ) :
    get_move G P t s [] fuel = (Except.ok (GRes.ret (some (-1, -1))), []) :=
  rfl

/-- Claim C7 (confirmed): the `Timeout` cancellation signal never propagates
out of `get_move`: on every input, every branch of `get_move` (including the
ones in which the iterative-deepening loop or the non-iterative search raises
`Timeout`) produces a normal return — the `try/except Timeout: pass` at the
driver boundary converts the exception into returning the best result found
so far. -/
theorem get_move_catches_timeout (G : GameI σ (ℤ × ℤ) π)
    (P : CustomPlayer σ π) (t : ℕ → ℚ) (s : σ) (lm : List (ℤ × ℤ))
    (fuel : ℕ) :
    timeoutCaught (get_move G P t s lm fuel).1 = true := by
  unfold get_move
  cases lm with
  | nil => rfl
  | cons m ms =>
    dsimp only
    split
    · rfl
    · split
      · rcases h : get_move_loop G P t fuel s (P.search_depth + 1)
          (some (-1, -1)) 0 with ⟨r, tr⟩
        cases r <;> simp [h, timeoutCaught]
      · rcases h : get_best_moveT G P t s P.search_depth 0 with ⟨r, s', k'⟩
        cases r <;> simp [h, timeoutCaught]

/-- Claim C1 (counterexample): on a state with zero legal moves — a case the
claim explicitly includes — minimax and alpha-beta do NOT return the same
utility: at depth 1, `minimax` returns the neutral utility `0` (its root
returns `(0, None)` on an empty utilities list) while `alphabeta` returns
`-∞` (`alphabeta_max_value` falls through its loop with the initial
`float("-inf")` accumulator). -/
theorem minimax_alphabeta_differ_on_no_moves :
    minimax noMoveG mmP sStart 1 = (Util.ofRat 0, none) ∧
    (alphabetaF noMoveG mmP sStart 1 ⊥ ⊤).1.1 = ⊥ ∧
    (Util.ofRat 0 : Util) ≠ ⊥ :=
  ⟨rfl, rfl, by decide⟩

/-- Claim C2 (code bug, demonstration): on a state with one legal move
`(0,0)` whose successor scores `99` from its own active player's perspective
but `5` from the mover's, depth-1 `alphabeta` computes root utility `5` and
then its recovery loop — which re-scores each child as
`score(new_game, new_game.active_player)`, i.e. from the OPPONENT's
perspective, not the perspective used inside the search — finds no child
matching `5` and returns the move `None`, although the legal move `(0,0)`
is exactly the move that produced the utility (as `minimax` confirms).
This contradicts the claim and `alphabeta`'s own docstring ("The best move
for the current branch; (-1, -1) for no legal moves"). -/
theorem alphabeta_recovery_returns_none_despite_legal_moves :
    (alphabetaF chainG perspP sStart 1 ⊥ ⊤).1 = (Util.ofRat 5, none) ∧
    chainG.get_legal_moves sStart = [(0, 0)] ∧
    minimax chainG perspP sStart 1 = (Util.ofRat 5, some (0, 0)) :=
  ⟨rfl, rfl, rfl⟩

/-- Claim C4 (code bug, demonstration): the alpha-beta recursive max/min
helpers perform NO time-budget checks — only the single root check in
`alphabeta` does.  With an oracle whose reading is above threshold only for
query 0, a depth-3 `alphabeta` search completes normally having consumed
exactly one oracle query (final counter 1), even though every reading from
query 1 on is below the threshold; on the same input the minimax helpers
(which do check on every recursive call) are cancelled: `minimax` returns
`(0, None)` after the second query trips. -/
theorem alphabeta_helpers_never_check_time :
    alphabetaT chainG abP tOnce sStart 3 ⊥ ⊤ 0
      = (Except.ok ((Util.ofRat 1, some (0, 0)), sStart), 1) ∧
    minimaxT chainG mmP tOnce sStart 3 0 = ((Util.ofRat 0, none), 2) ∧
    tOnce 1 < abP.TIMER_THRESHOLD :=
  ⟨rfl, rfl, by decide⟩

/-- Claim C5 (counterexample): the engine DOES mutate an attribute reachable
from the caller's state: when the state has a `counter` attribute,
`alphabeta`'s recovery loop executes `game.counter[move] -= 1` for each
probed root move.  On a state whose counter maps `(0,0)` to `3`, the state
after a depth-1 `alphabeta` call has the counter at `2`, differing from the
input state. -/
theorem alphabeta_mutates_counter :
    (alphabetaF chainG abP sCtr 1 ⊥ ⊤).2
      = { hist := [(9, 9)], ctrOn := true, ctr := [((0, 0), 2)] } ∧
    (alphabetaF chainG abP sCtr 1 ⊥ ⊤).2 ≠ sCtr :=
  ⟨rfl, by decide⟩

/-- Claim C9 (counterexample): on the spec's concrete scenario — three legal
moves A=(0,0), B=(1,1), C=(2,2) with one-ply heuristic scores A=2, B=5, C=5
— the depth-1 `alphabeta` search does NOT return B: its recovery loop
matches children by their score from the opponent's perspective (here A
scores 5 = the root utility), so it returns A, the move whose one-ply score
is 2.  `minimax` on the same input does return B, the first-seen maximal
move. -/
theorem alphabeta_tiebreak_scenario_returns_A :
    (alphabetaF tripleG tieP sStart 1 ⊥ ⊤).1 = (Util.ofRat 5, some (0, 0)) ∧
    minimax tripleG tieP sStart 1 = (Util.ofRat 5, some (1, 1)) ∧
    (min_value tripleG tieP (tripleG.forecast_move sStart (0, 0)) 0,
     min_value tripleG tieP (tripleG.forecast_move sStart (1, 1)) 0,
     min_value tripleG tieP (tripleG.forecast_move sStart (2, 2)) 0)
      = (Util.ofRat 2, Util.ofRat 5, Util.ofRat 5) :=
  ⟨rfl, rfl, rfl⟩

/-- Claim C3 (counterexample): with `search_depth = 3`, iterative deepening
invokes the search at depths 5, 6, … — not 1, 2, 3, …: `get_move` sets
`depth = self.search_depth; depth += 1` before the loop and the loop body
increments again before each invocation.  Concretely (single-move chain
board, oracle good for 12 queries) the recorded invocation depths are
`[5, 6]`, and the first invoked depth differs from the claimed `1`. -/
theorem iterative_deepening_starts_at_search_depth_plus_two :
    get_move chainG mmP tTwelve sStart [(0, 0)] 10
      = (Except.ok (GRes.ret (some (0, 0))), [5, 6]) ∧ (5 : ℕ) ≠ 1 :=
  ⟨rfl, by decide⟩

/-! ### Order and fold helper lemmas for the alpha-beta/minimax equivalence -/

/-- Clamping to the window `[a, b]` can be written in either order. -/
lemma clamp_comm (x a b : Util) (hab : a ≤ b) :
    max (min x b) a = min (max x a) b := by
  rcases le_total x b with h | h
  · rw [min_eq_left h, min_eq_left (max_le h hab)]
  · rw [min_eq_right h, max_eq_left hab,
      min_eq_right (le_trans h (le_max_left x a))]

/-- A `max`-fold over a list distributes over a `max` in the seed. -/
lemma foldl_max_shift (g : μ → Util) :
    ∀ (ms : List μ) (x y : Util),
      ms.foldl (fun u m => max u (g m)) (max x y)
        = max x (ms.foldl (fun u m => max u (g m)) y) := by
  intro ms
  induction ms with
  | nil => intro x y; rfl
  | cons m ms ih =>
    intro x y
    dsimp only [List.foldl]
    rw [max_assoc, ih]

/-- A `min`-fold over a list distributes over a `min` in the seed. -/
lemma foldl_min_shift (g : μ → Util) :
    ∀ (ms : List μ) (x y : Util),
      ms.foldl (fun u m => min u (g m)) (min x y)
        = min x (ms.foldl (fun u m => min u (g m)) y) := by
  intro ms
  induction ms with
  | nil => intro x y; rfl
  | cons m ms ih =>
    intro x y
    dsimp only [List.foldl]
    rw [min_assoc, ih]

/-- A `max`-fold equals the seed joined with the fold from `⊥`. -/
lemma foldl_max_absorb (g : μ → Util) (ms : List μ) (y : Util) :
    ms.foldl (fun u m => max u (g m)) y
      = max y (ms.foldl (fun u m => max u (g m)) ⊥) := by
  conv_lhs => rw [← max_eq_left (bot_le : (⊥ : Util) ≤ y)]
  exact foldl_max_shift g ms y ⊥

/-- A `min`-fold equals the seed met with the fold from `⊤`. -/
lemma foldl_min_absorb (g : μ → Util) (ms : List μ) (y : Util) :
    ms.foldl (fun u m => min u (g m)) y
      = min y (ms.foldl (fun u m => min u (g m)) ⊤) := by
  conv_lhs => rw [← min_eq_left (le_top : y ≤ (⊤ : Util))]
  exact foldl_min_shift g ms y ⊤

/-- The seed bounds a `max`-fold from below. -/
lemma le_foldl_max (g : μ → Util) (ms : List μ) (y : Util) :
    y ≤ ms.foldl (fun u m => max u (g m)) y := by
  rw [foldl_max_absorb]; exact le_max_left _ _

/-- The seed bounds a `min`-fold from above. -/
lemma foldl_min_le (g : μ → Util) (ms : List μ) (y : Util) :
    ms.foldl (fun u m => min u (g m)) y ≤ y := by
  rw [foldl_min_absorb]; exact min_le_left _ _

/-- The running utility only grows along `ab_max_loop`. -/
lemma ab_max_loop_ge (G : GameI σ μ π) (child : σ → Util → Util → Util)
    (s : σ) (b : Util) :
    ∀ (ms : List μ) (u a : Util), u ≤ ab_max_loop G child s b ms u a := by
  intro ms
  induction ms with
  | nil => intro u a; exact le_rfl
  | cons m ms ih =>
    intro u a
    dsimp only [ab_max_loop]
    split
    · exact le_max_left _ _
    · exact le_trans (le_max_left _ _) (ih _ _)

/-- The running utility only shrinks along `ab_min_loop`. -/
lemma ab_min_loop_le (G : GameI σ μ π) (child : σ → Util → Util → Util)
    (s : σ) (a : Util) :
    ∀ (ms : List μ) (u b : Util), ab_min_loop G child s a ms u b ≤ u := by
  intro ms
  induction ms with
  | nil => intro u b; exact le_rfl
  | cons m ms ih =>
    intro u b
    dsimp only [ab_min_loop]
    split
    · exact min_le_left _ _
    · exact le_trans (ih _ _) (min_le_left _ _)

/-- Joining with `a` erases a component that is at most `a` after clamping. -/
lemma clamp_absorb (a b x W : Util) (hx : min x b ≤ a) :
    max (min (max x W) b) a = max (min W b) a := by
  rw [min_max_distrib_right, sup_right_comm, max_eq_right hx, max_comm a (min W b)]

/-- Meeting with `b` erases a component that is at least `b` after clamping. -/
lemma clamp_absorb_min (a b x W : Util) (hx : b ≤ max x a) :
    min (max (min x W) a) b = min (max W a) b := by
  rw [max_min_distrib_right, inf_right_comm, min_eq_right hx, min_comm b (max W a)]

/-- Knuth–Moore style invariant for the `alphabeta_max_value` loop: clamped
to the window `(a, b)`, the fail-soft loop result agrees with the plain
`max`-fold of the children's true values, provided each child call satisfies
the same clamped agreement with its true value. -/
lemma ab_max_loop_clamp (G : GameI σ μ π) (child : σ → Util → Util → Util)
    (w : σ → Util) (s : σ) (b : Util)
    (hc : ∀ c a', a' < b →
      max (min (child c a' b) b) a' = max (min (w c) b) a') :
    ∀ (ms : List μ) (u a : Util), u ≤ a → a < b →
      max (min (ab_max_loop G child s b ms u a) b) a
        = max (min (ms.foldl
            (fun x m => max x (w (G.forecast_move s m))) u) b) a := by
  intro ms
  induction ms with
  | nil => intro u a _ _; rfl
  | cons m ms ih =>
    intro u a hua hab
    dsimp only [ab_max_loop, List.foldl]
    have hchild := hc (G.forecast_move s m) a hab
    set rc := child (G.forecast_move s m) a b with hrc
    set vc := w (G.forecast_move s m) with hvc
    by_cases hcut : b ≤ max u rc
    · rw [if_pos hcut]
      have hub : u < b := lt_of_le_of_lt hua hab
      have hrcb : b ≤ rc := by
        rcases le_total rc u with h | h
        · rw [max_eq_left h] at hcut; exact absurd hcut (not_le.2 hub)
        · rwa [max_eq_right h] at hcut
      have hvcb : b ≤ vc := by
        rw [min_eq_right hrcb, max_eq_left hab.le] at hchild
        by_contra hlt
        push_neg at hlt
        rw [min_eq_left hlt.le] at hchild
        have hl : max vc a < b := max_lt hlt hab
        rw [← hchild] at hl
        exact lt_irrefl b hl
      have hge : b ≤ ms.foldl
          (fun x m => max x (w (G.forecast_move s m))) (max u vc) :=
        le_trans (le_trans hvcb (le_max_right u vc)) (le_foldl_max _ _ _)
      rw [min_eq_right hcut, max_eq_left hab.le, min_eq_right hge,
        max_eq_left hab.le]
    · rw [if_neg hcut]
      push_neg at hcut
      have hrcb : rc < b := lt_of_le_of_lt (le_max_right u rc) hcut
      rw [min_eq_left hrcb.le] at hchild
      rcases le_or_lt rc a with hra | har
      · have hua' : max u rc ≤ a := max_le hua hra
        have haeq : max a (max u rc) = a := max_eq_left hua'
        rw [haeq, ih (max u rc) a hua' hab,
          foldl_max_absorb _ ms (max u rc), foldl_max_absorb _ ms (max u vc)]
        have h1 : min (max u rc) b ≤ a := le_trans (min_le_left _ _) hua'
        have h2 : min (max u vc) b ≤ a := by
          rw [max_eq_right hra] at hchild
          have hvca : min vc b ≤ a := max_eq_right_iff.mp hchild.symm
          rw [min_max_distrib_right]
          exact max_le (le_trans (min_le_left _ _) hua) hvca
        rw [clamp_absorb a b _ _ h1, clamp_absorb a b _ _ h2]
      · have hurc : max u rc = rc := max_eq_right (le_trans hua har.le)
        have haurc : max a (max u rc) = rc := by
          rw [hurc]; exact max_eq_right har.le
        rw [max_eq_left har.le] at hchild
        have hvceq : min vc b = rc := by
          rcases le_or_lt (min vc b) a with h | h
          · rw [max_eq_right h] at hchild
            exact absurd hchild.symm (ne_of_lt har)
          · rw [max_eq_left h.le] at hchild; exact hchild.symm
        have hvc' : vc = rc := by
          rcases le_or_lt b vc with h | h
          · rw [min_eq_right h] at hvceq; exact absurd hvceq (ne_of_gt hrcb)
          · rw [min_eq_left h.le] at hvceq; exact hvceq
        have huvc : max u vc = rc := by rw [hvc']; exact hurc
        rw [haurc, hurc, huvc]
        have hIH := ih rc rc le_rfl hrcb
        have hL : rc ≤ min (ab_max_loop G child s b ms rc rc) b :=
          le_min (ab_max_loop_ge G child s b ms rc rc) hrcb.le
        have hR : rc ≤ min (ms.foldl
            (fun x m => max x (w (G.forecast_move s m))) rc) b :=
          le_min (le_foldl_max _ _ _) hrcb.le
        rw [max_eq_left hL, max_eq_left hR] at hIH
        rw [max_eq_left (le_trans har.le hL), max_eq_left (le_trans har.le hR),
          hIH]

/-- Dual invariant for the `alphabeta_min_value` loop. -/
lemma ab_min_loop_clamp (G : GameI σ μ π) (child : σ → Util → Util → Util)
    (w : σ → Util) (s : σ) (a : Util)
    (hc : ∀ c b', a < b' →
      min (max (child c a b') a) b' = min (max (w c) a) b') :
    ∀ (ms : List μ) (u b : Util), b ≤ u → a < b →
      min (max (ab_min_loop G child s a ms u b) a) b
        = min (max (ms.foldl
            (fun x m => min x (w (G.forecast_move s m))) u) a) b := by
  intro ms
  induction ms with
  | nil => intro u b _ _; rfl
  | cons m ms ih =>
    intro u b hbu hab
    dsimp only [ab_min_loop, List.foldl]
    have hchild := hc (G.forecast_move s m) b hab
    set rc := child (G.forecast_move s m) a b with hrc
    set vc := w (G.forecast_move s m) with hvc
    by_cases hcut : min u rc ≤ a
    · rw [if_pos hcut]
      have hau : a < u := lt_of_lt_of_le hab hbu
      have hrca : rc ≤ a := by
        rcases le_total u rc with h | h
        · rw [min_eq_left h] at hcut; exact absurd hcut (not_le.2 hau)
        · rwa [min_eq_right h] at hcut
      have hvca : vc ≤ a := by
        rw [max_eq_right hrca, min_eq_left hab.le] at hchild
        by_contra hlt
        push_neg at hlt
        rw [max_eq_left hlt.le] at hchild
        have hl : a < min vc b := lt_min hlt hab
        rw [← hchild] at hl
        exact lt_irrefl a hl
      have hle : ms.foldl
          (fun x m => min x (w (G.forecast_move s m))) (min u vc) ≤ a :=
        le_trans (foldl_min_le _ _ _) (le_trans (min_le_right u vc) hvca)
      rw [max_eq_right hcut, min_eq_left hab.le, max_eq_right hle,
        min_eq_left hab.le]
    · rw [if_neg hcut]
      push_neg at hcut
      have harc : a < rc := lt_of_lt_of_le hcut (min_le_right u rc)
      rw [max_eq_left harc.le] at hchild
      rcases le_or_lt b rc with hbr | hrb
      · have hub' : b ≤ min u rc := le_min hbu hbr
        have hbeq : min b (min u rc) = b := min_eq_left hub'
        rw [hbeq, ih (min u rc) b hub' hab,
          foldl_min_absorb _ ms (min u rc), foldl_min_absorb _ ms (min u vc)]
        have h1 : b ≤ max (min u rc) a := le_trans hub' (le_max_left _ _)
        have h2 : b ≤ max (min u vc) a := by
          rw [min_eq_right hbr] at hchild
          have hvcb : b ≤ max vc a := min_eq_right_iff.mp hchild.symm
          rw [max_min_distrib_right]
          exact le_min (le_trans hbu (le_max_left _ _)) hvcb
        rw [clamp_absorb_min a b _ _ h1, clamp_absorb_min a b _ _ h2]
      · have hurc : min u rc = rc := min_eq_right (le_trans hrb.le hbu)
        have hburc : min b (min u rc) = rc := by
          rw [hurc]; exact min_eq_right hrb.le
        rw [min_eq_left hrb.le] at hchild
        have hvceq : max vc a = rc := by
          rcases le_or_lt b (max vc a) with h | h
          · rw [min_eq_right h] at hchild
            exact absurd hchild.symm (ne_of_gt hrb)
          · rw [min_eq_left h.le] at hchild; exact hchild.symm
        have hvc' : vc = rc := by
          rcases le_or_lt vc a with h | h
          · rw [max_eq_right h] at hvceq
            exact absurd hvceq (ne_of_lt harc)
          · rw [max_eq_left h.le] at hvceq; exact hvceq
        have huvc : min u vc = rc := by rw [hvc']; exact hurc
        rw [hburc, hurc, huvc]
        have hIH := ih rc rc le_rfl harc
        have hL : max (ab_min_loop G child s a ms rc rc) a ≤ rc :=
          max_le (ab_min_loop_le G child s a ms rc rc) harc.le
        have hR : max (ms.foldl
            (fun x m => min x (w (G.forecast_move s m))) rc) a ≤ rc :=
          max_le (foldl_min_le _ _ _) harc.le
        rw [min_eq_left hL, min_eq_left hR] at hIH
        rw [min_eq_left (le_trans hL hrb.le), min_eq_left (le_trans hR hrb.le),
          hIH]

/-- Fail-soft alpha-beta agrees with minimax after clamping to any valid
window, at every depth (simultaneous induction over the max and min sides). -/
lemma ab_clamp (G : GameI σ μ π) (P : CustomPlayer σ π) : ∀ (d : ℕ),
    (∀ (s : σ) (a b : Util), a < b →
      max (min (alphabeta_max_value G P s d a b) b) a
        = max (min (max_value G P s d) b) a) ∧
    (∀ (s : σ) (a b : Util), a < b →
      min (max (alphabeta_min_value G P s d a b) a) b
        = min (max (min_value G P s d) a) b) := by
  intro d
  induction d with
  | zero => exact ⟨fun s a b _ => rfl, fun s a b _ => rfl⟩
  | succ e ih =>
    obtain ⟨ihmax, ihmin⟩ := ih
    constructor
    · intro s a b hab
      have hc : ∀ c a', a' < b →
          max (min ((abPair G P e).2 c a' b) b) a'
            = max (min ((mmPair G P e).2 c) b) a' := by
        intro c a' ha'b
        rw [clamp_comm _ _ _ ha'b.le, clamp_comm _ _ _ ha'b.le]
        exact ihmin c a' b ha'b
      exact ab_max_loop_clamp G (abPair G P e).2 (mmPair G P e).2 s b hc
        (G.get_legal_moves s) ⊥ a bot_le hab
    · intro s a b hab
      have hc : ∀ c b', a < b' →
          min (max ((abPair G P e).1 c a b') a) b'
            = min (max ((mmPair G P e).1 c) a) b' := by
        intro c b' hab'
        rw [← clamp_comm _ _ _ hab'.le, ← clamp_comm _ _ _ hab'.le]
        exact ihmax c a b' hab'
      exact ab_min_loop_clamp G (abPair G P e).1 (mmPair G P e).1 s a hc
        (G.get_legal_moves s) ⊤ b le_top hab

/-- With the full window `(-∞, +∞)` (the values `alphabeta` passes at the
root), `alphabeta_max_value` computes exactly the minimax helper value. -/
lemma alphabeta_max_value_eq_max_value (G : GameI σ μ π)
    (P : CustomPlayer σ π) (s : σ) (d : ℕ) :
    alphabeta_max_value G P s d ⊥ ⊤ = max_value G P s d := by
  have h := (ab_clamp G P d).1 s ⊥ ⊤ bot_lt_top
  rwa [min_eq_left le_top, min_eq_left le_top, max_eq_left bot_le,
    max_eq_left bot_le] at h

/-- The utility component of `pyMax` is the `max`-fold of the keys. -/
lemma pyMax_fst : ∀ (l : List (Util × μ)) (p : Util × μ),
    (pyMax p l).1 = l.foldl (fun x q => max x q.1) p.1 := by
  intro l
  induction l with
  | nil => intro p; rfl
  | cons q qs ih =>
    intro p
    show (pyMax (if p.1 < q.1 then q else p) qs).1 = _
    rw [ih]
    dsimp only [List.foldl]
    by_cases h : p.1 < q.1
    · rw [if_pos h, max_eq_right h.le]
    · rw [if_neg h, max_eq_left (not_lt.1 h)]

/-- On a state with at least one legal move, the utility returned by the
`minimax` root is the minimax helper value of the state. -/
lemma minimax_fst_eq_max_value (G : GameI σ μ π) (P : CustomPlayer σ π)
    (s : σ) (e : ℕ) (h : G.get_legal_moves s ≠ []) :
    (minimax G P s (e + 1)).1 = max_value G P s (e + 1) := by
  rcases hlm : G.get_legal_moves s with _ | ⟨m, ms⟩
  · exact absurd hlm h
  · unfold minimax
    rw [hlm]
    dsimp only [List.map]
    rw [pyMax_fst, List.foldl_map]
    unfold max_value
    simp only [mmPair]
    rw [hlm]
    dsimp only [List.foldl, min_value]
    rw [max_eq_right (bot_le :
      (⊥ : Util) ≤ (mmPair G P e).2 (G.forecast_move s m))]
    simp only [Nat.add_sub_cancel]

/-- Claim C1 (amended): for every game state with at least one legal move and
every depth at least 1, the minimax search and the alpha-beta search (with
the default full window, no timeout) return the same utility value —
alpha-beta prunes but does not change the answer; only the returned moves
may differ.  (On states with ZERO legal moves the utilities differ: minimax
returns `0` and alphabeta `-∞`, see the counterexample; depth `0` is also
excluded since `alphabeta` then scores the root itself while `minimax`
scores the forecast children.) -/
theorem minimax_alphabeta_same_utility (G : GameI σ μ π)
    (P : CustomPlayer σ π) (s : σ) (d : ℕ)
    (h : G.get_legal_moves s ≠ []) (hd : 1 ≤ d) :
    (minimax G P s d).1 = (alphabetaF G P s d ⊥ ⊤).1.1 := by
  obtain ⟨e, rfl⟩ : ∃ e, d = e + 1 :=
    ⟨d - 1, (Nat.succ_pred_eq_of_pos hd).symm⟩
  have hab : (alphabetaF G P s (e + 1) ⊥ ⊤).1.1
      = alphabeta_max_value G P s (e + 1) ⊥ ⊤ := rfl
  rw [hab, alphabeta_max_value_eq_max_value,
    minimax_fst_eq_max_value G P s e h]

/-- Witness for C1: on the concrete two-move board at depth 2, both searches
compute the same utility. -/
theorem minimax_alphabeta_same_utility_witness :
    pairG.get_legal_moves sStart ≠ [] ∧
    (minimax pairG abP sStart 2).1 = (alphabetaF pairG abP sStart 2 ⊥ ⊤).1.1 :=
  ⟨by decide,
   minimax_alphabeta_same_utility pairG abP sStart 2 (by decide) (by decide)⟩

/-- Python's `max` with a key returns the FIRST maximal element: the list
splits as a prefix of strictly smaller keys, the returned element, and a
suffix, with every key bounded by the returned one. -/
lemma pyMax_first_maximal : ∀ (l : List (Util × μ)) (p : Util × μ),
    ∃ l1 l2, p :: l = l1 ++ pyMax p l :: l2 ∧
      (∀ r ∈ l1, r.1 < (pyMax p l).1) ∧
      (∀ r ∈ p :: l, r.1 ≤ (pyMax p l).1) := by
  intro l
  induction l with
  | nil =>
    intro p
    refine ⟨[], [], rfl, ?_, ?_⟩
    · intro r hr; exact absurd hr (List.not_mem_nil r)
    · intro r hr; rw [List.mem_singleton.mp hr]; exact le_rfl
  | cons q qs ih =>
    intro p
    by_cases hpq : p.1 < q.1
    · have hstep : pyMax p (q :: qs) = pyMax q qs := by
        show pyMax (if p.1 < q.1 then q else p) qs = _
        rw [if_pos hpq]
      rcases ih q with ⟨l1, l2, heq, hlt, hle⟩
      refine ⟨p :: l1, l2, ?_, ?_, ?_⟩
      · rw [hstep, List.cons_append]
        exact congrArg (List.cons p) heq
      · intro r hr
        rw [hstep]
        rcases List.mem_cons.mp hr with hrp | hrl
        · rw [hrp]
          exact lt_of_lt_of_le hpq (hle q (List.mem_cons_self q qs))
        · exact hlt r hrl
      · intro r hr
        rw [hstep]
        rcases List.mem_cons.mp hr with hrp | hrl
        · rw [hrp]
          exact le_of_lt (lt_of_lt_of_le hpq (hle q (List.mem_cons_self q qs)))
        · exact hle r hrl
    · have hstep : pyMax p (q :: qs) = pyMax p qs := by
        show pyMax (if p.1 < q.1 then q else p) qs = _
        rw [if_neg hpq]
      rcases ih p with ⟨l1, l2, heq, hlt, hle⟩
      cases l1 with
      | nil =>
        have h1 : pyMax p qs = p := by
          have := heq
          rw [List.nil_append] at this
          injection this with h1 _
          exact h1.symm
        refine ⟨[], q :: qs, ?_, ?_, ?_⟩
        · rw [hstep, h1]; rfl
        · intro r hr; exact absurd hr (List.not_mem_nil r)
        · intro r hr
          rw [hstep, h1]
          rcases List.mem_cons.mp hr with hrp | hrl
          · rw [hrp]
          · rcases List.mem_cons.mp hrl with hrq | hrqs
            · rw [hrq]; exact not_lt.1 hpq
            · have hh := hle r (List.mem_cons_of_mem p hrqs)
              rw [h1] at hh; exact hh
      | cons x l1' =>
        have hx1 : p = x := by
          rw [List.cons_append] at heq
          injection heq with h1 _
        have hx2 : qs = l1' ++ pyMax p qs :: l2 := by
          rw [List.cons_append] at heq
          injection heq with _ h2
        have hpM : p.1 < (pyMax p qs).1 := by
          have hh := hlt x (List.mem_cons_self x l1')
          rw [← hx1] at hh; exact hh
        refine ⟨p :: q :: l1', l2, ?_, ?_, ?_⟩
        · rw [hstep]
          show p :: q :: qs = p :: q :: (l1' ++ pyMax p qs :: l2)
          rw [← hx2]
        · intro r hr
          rw [hstep]
          rcases List.mem_cons.mp hr with hrp | hrl
          · rw [hrp]; exact hpM
          · rcases List.mem_cons.mp hrl with hrq | hrl'
            · rw [hrq]; exact lt_of_le_of_lt (not_lt.1 hpq) hpM
            · exact hlt r (List.mem_cons_of_mem x hrl')
        · intro r hr
          rw [hstep]
          rcases List.mem_cons.mp hr with hrp | hrl
          · rw [hrp]; exact hle p (List.mem_cons_self p qs)
          · rcases List.mem_cons.mp hrl with hrq | hrqs
            · rw [hrq]
              exact le_trans (not_lt.1 hpq) (hle p (List.mem_cons_self p qs))
            · exact hle r (List.mem_cons_of_mem p hrqs)

/-- Claim C9 (amended): `minimax` breaks ties at the optimal utility by
first-seen order — its root returns the earliest move attaining the maximum
utility: the `utilities` list splits into a prefix of strictly smaller
utilities, the returned `(utility, move)` pair, and a suffix, with all
utilities bounded by the returned one.  (For the concrete A=2, B=5, C=5
scenario this makes depth-1 `minimax` return B.  The depth-1 `alphabeta`
search does NOT obey the claim: its re-scoring recovery loop returns A on
that scenario — see the counterexample.) -/
theorem minimax_first_seen_tiebreak (G : GameI σ μ π) (P : CustomPlayer σ π)
    (s : σ) (d : ℕ) (h : G.get_legal_moves s ≠ []) :
    ∃ l1 l2 v mv,
      (G.get_legal_moves s).map
          (fun m => (min_value G P (G.forecast_move s m) (d - 1), m))
        = l1 ++ (v, mv) :: l2 ∧
      (∀ r ∈ l1, r.1 < v) ∧
      (∀ r ∈ (G.get_legal_moves s).map
          (fun m => (min_value G P (G.forecast_move s m) (d - 1), m)),
        r.1 ≤ v) ∧
      minimax G P s d = (v, some mv) := by
  rcases hlm : G.get_legal_moves s with _ | ⟨m, ms⟩
  · exact absurd hlm h
  · dsimp only [List.map]
    set f := fun m' => (min_value G P (G.forecast_move s m') (d - 1), m')
      with hf
    rcases pyMax_first_maximal (ms.map f) (f m) with ⟨l1, l2, heq, hlt, hle⟩
    refine ⟨l1, l2, (pyMax (f m) (ms.map f)).1, (pyMax (f m) (ms.map f)).2,
      ?_, hlt, hle, ?_⟩
    · rw [Prod.mk.eta]
      exact heq
    · unfold minimax
      rw [hlm]
      dsimp only [List.map]

/-- Witness for C9 (amended): instantiated on the A=2, B=5, C=5 scenario at
depth 1. -/
theorem minimax_first_seen_tiebreak_witness :
    ∃ l1 l2 v mv,
      (tripleG.get_legal_moves sStart).map
          (fun m =>
            (min_value tripleG tieP (tripleG.forecast_move sStart m) (1 - 1),
             m))
        = l1 ++ (v, mv) :: l2 ∧
      (∀ r ∈ l1, r.1 < v) ∧
      (∀ r ∈ (tripleG.get_legal_moves sStart).map
          (fun m =>
            (min_value tripleG tieP (tripleG.forecast_move sStart m) (1 - 1),
             m)),
        r.1 ≤ v) ∧
      minimax tripleG tieP sStart 1 = (v, some mv) :=
  minimax_first_seen_tiebreak tripleG tieP sStart 1 (by decide)

/-! ### Driver-level lemmas -/

/-- The timed `min_value` raises `Timeout` immediately (consuming one query)
when the current reading is below threshold, at every depth. -/
lemma min_valueT_trips (G : GameI σ μ π) (P : CustomPlayer σ π) (t : ℕ → ℚ)
    (s : σ) (d k : ℕ) (h : t k < P.TIMER_THRESHOLD) :
    min_valueT G P t s d k = (Except.error (), k + 1) := by
  cases d <;> simp [min_valueT, mmPairT, h]

/-- When the oracle never reports a reading below threshold,
`get_best_move` always returns normally (no `Timeout`). -/
lemma get_best_moveT_ok (G : GameI σ (ℤ × ℤ) π) (P : CustomPlayer σ π)
    (t : ℕ → ℚ) (h : ∀ k, ¬ t k < P.TIMER_THRESHOLD) (s : σ) (d k : ℕ) :
    ∃ mv s' k', get_best_moveT G P t s d k = (Except.ok mv, s', k') := by
  unfold get_best_moveT
  cases P.method with
  | minimax =>
    rcases hm : minimaxT G P t s d k with ⟨⟨u, mv⟩, k'⟩
    exact ⟨mv, s, k', rfl⟩
  | alphabeta =>
    have hab : alphabetaT G P t s d ⊥ ⊤ k
        = (Except.ok (alphabetaF G P s d ⊥ ⊤), k + 1) := by
      unfold alphabetaT; rw [if_neg (h k)]
    rcases hf : alphabetaF G P s d ⊥ ⊤ with ⟨⟨u, mv⟩, s'⟩
    exact ⟨mv, s', k + 1, by rw [hab, hf]⟩

/-- When the oracle never reports a reading below threshold, the
iterative-deepening loop never exits: it consumes all its fuel. -/
lemma get_move_loop_no_trip (G : GameI σ (ℤ × ℤ) π) (P : CustomPlayer σ π)
    (t : ℕ → ℚ) (h : ∀ k, ¬ t k < P.TIMER_THRESHOLD) :
    ∀ (fuel : ℕ) (s : σ) (d : ℕ) (sel : Option (ℤ × ℤ)) (k : ℕ),
      (get_move_loop G P t fuel s d sel k).1 = LoopRes.fuelOut := by
  intro fuel
  induction fuel with
  | zero => intro s d sel k; rfl
  | succ n ih =>
    intro s d sel k
    rcases get_best_moveT_ok G P t h s (d + 1) k with ⟨mv, s', k', hbm⟩
    simp only [get_move_loop, hbm, h k', if_false]
    exact ih s' (d + 1) _ (k' + 1)

/-- The loop's recorded invocation depths always form the arithmetic
progression `d+1, d+2, …` for as many iterations as it performed. -/
lemma get_move_loop_trace (G : GameI σ (ℤ × ℤ) π) (P : CustomPlayer σ π)
    (t : ℕ → ℚ) :
    ∀ (fuel : ℕ) (s : σ) (d : ℕ) (sel : Option (ℤ × ℤ)) (k : ℕ),
      (get_move_loop G P t fuel s d sel k).2
        = List.range' (d + 1) (get_move_loop G P t fuel s d sel k).2.length := by
  intro fuel
  induction fuel with
  | zero => intro s d sel k; rfl
  | succ n ih =>
    intro s d sel k
    rcases hbm : get_best_moveT G P t s (d + 1) k with ⟨r, s', k'⟩
    cases r with
    | error e => simp [get_move_loop, hbm, List.range'_succ]
    | ok temp =>
      by_cases hck : t k' < P.TIMER_THRESHOLD
      · simp [get_move_loop, hbm, hck, List.range'_succ]
      · simp only [get_move_loop, hbm, hck, if_false, List.length_cons,
          List.range'_succ]
        exact congrArg (List.cons (d + 1)) (ih s' (d + 1) _ (k' + 1))

/-- Claim C3 (amended): when iterative deepening is enabled (on a state with
legal moves, past the opening), `get_move` invokes the configured search at
depths `search_depth + 2, search_depth + 3, …` in increasing unit steps —
not starting from depth 1: the recorded invocation-depth trace is exactly
the arithmetic progression starting at `search_depth + 2`. -/
theorem get_move_depths_start_after_search_depth (G : GameI σ (ℤ × ℤ) π)
    (P : CustomPlayer σ π) (t : ℕ → ℚ) (s : σ) (lm : List (ℤ × ℤ)) (fuel : ℕ)
    (hlm : lm ≠ []) (hmc : G.move_count s ≠ 0) (hit : P.iterative = true) :
    (get_move G P t s lm fuel).2
      = List.range' (P.search_depth + 2) (get_move G P t s lm fuel).2.length := by
  rcases lm with _ | ⟨m, ms⟩
  · exact absurd rfl hlm
  · unfold get_move
    rw [if_neg hmc, if_pos hit]
    rcases hl : get_move_loop G P t fuel s (P.search_depth + 1)
      (some (-1, -1)) 0 with ⟨r, tr⟩
    have htr := get_move_loop_trace G P t fuel s (P.search_depth + 1)
      (some (-1, -1)) 0
    rw [hl] at htr
    cases r with
    | fuelOut => exact htr
    | raised sel => exact htr

/-- Witness for C3 (amended): the concrete chain-board run records the
depths `5, 6` for `search_depth = 3`. -/
theorem get_move_depths_start_after_search_depth_witness :
    (get_move chainG mmP tTwelve sStart [(0, 0)] 10).2
      = List.range' (mmP.search_depth + 2)
          (get_move chainG mmP tTwelve sStart [(0, 0)] 10).2.length :=
  get_move_depths_start_after_search_depth chainG mmP tTwelve sStart
    [(0, 0)] 10 (by decide) (by decide) rfl

/-- Claim C10 (confirmed): with iterative deepening enabled, on a state with
at least one legal move and past the opening shortcut, the deepening loop has
no depth bound and exits only via the `Timeout` raised when `time_left()`
falls below `TIMER_THRESHOLD`: if the injected oracle never reports a reading
below the threshold, `get_move` does not terminate (in the bounded model, it
exhausts every amount of fuel). -/
theorem get_move_no_timeout_never_terminates (G : GameI σ (ℤ × ℤ) π)
    (P : CustomPlayer σ π) (t : ℕ → ℚ) (s : σ) (lm : List (ℤ × ℤ))
    (h : ∀ k, ¬ t k < P.TIMER_THRESHOLD) (hlm : lm ≠ [])
    (hmc : G.move_count s ≠ 0) (hit : P.iterative = true) (fuel : ℕ) :
    (get_move G P t s lm fuel).1 = Except.ok GRes.fuelOut := by
  rcases lm with _ | ⟨m, ms⟩
  · exact absurd rfl hlm
  · unfold get_move
    rw [if_neg hmc, if_pos hit]
    rcases hl : get_move_loop G P t fuel s (P.search_depth + 1)
      (some (-1, -1)) 0 with ⟨r, tr⟩
    have hr := get_move_loop_no_trip G P t h fuel s (P.search_depth + 1)
      (some (-1, -1)) 0
    rw [hl] at hr
    dsimp only at hr
    subst hr
    rfl

/-- Witness for C10: on the concrete chain board with a constant oracle of
`100` against threshold `10`, `get_move` exhausts (e.g.) 3 units of fuel. -/
theorem get_move_no_timeout_never_terminates_witness :
    (get_move chainG mmP tGood sStart [(0, 0)] 3).1 = Except.ok GRes.fuelOut :=
  get_move_no_timeout_never_terminates chainG mmP tGood sStart [(0, 0)]
    (by intro k; show ¬((100 : ℚ) < 10); decide) (by decide) (by decide) rfl 3

/-- Claim C6 (amended): under iterative deepening, when EVERY branch of a
depth's search is cancelled before contributing a move (the oracle is below
threshold on every query from the iteration's start), the driver keeps the
previously selected move: `minimax` returns the move `None` (so
`selected_move` is not overwritten) and `alphabeta` raises at its root check;
either way the loop exits returning the previous `selected_move` unchanged.
(The first half of the original claim is FALSE: a deeper `minimax` search
interrupted partway through its root children DOES contribute — its root
loop catches the `Timeout` and returns the best of the children completed so
far, overwriting the previous depth's move; see the counterexample.) -/
theorem all_branches_cancelled_keeps_previous_move (G : GameI σ (ℤ × ℤ) π)
    (P : CustomPlayer σ π) (t : ℕ → ℚ) (s : σ) (d : ℕ)
    (sel : Option (ℤ × ℤ)) (k fuel : ℕ)
    (h : ∀ j, k ≤ j → t j < P.TIMER_THRESHOLD) :
    get_move_loop G P t (fuel + 1) s d sel k = (LoopRes.raised sel, [d + 1]) := by
  have hk : t k < P.TIMER_THRESHOLD := h k le_rfl
  have hk1 : t (k + 1) < P.TIMER_THRESHOLD := h (k + 1) (Nat.le_succ k)
  cases hme : P.method with
  | minimax =>
    cases hlm : G.get_legal_moves s with
    | nil =>
      simp [get_move_loop, get_best_moveT, hme, minimaxT, mm_rootT, hlm, hk]
    | cons m ms =>
      have hmv : min_valueT G P t (G.forecast_move s m) d k
          = (Except.error (), k + 1) :=
        min_valueT_trips G P t (G.forecast_move s m) d k hk
      simp [get_move_loop, get_best_moveT, hme, minimaxT, mm_rootT, hlm, hmv,
        hk1]
  | alphabeta =>
    simp [get_move_loop, get_best_moveT, hme, alphabetaT, hk]

/-- Witness for C6 (amended): with the always-exhausted oracle, one loop
iteration returns the previously selected move `(2,2)` unchanged. -/
theorem all_branches_cancelled_keeps_previous_move_witness :
    get_move_loop pairG rootMoveP tDead 1 sStart 5 (some (2, 2)) 0
      = (LoopRes.raised (some (2, 2)), [6]) :=
  all_branches_cancelled_keeps_previous_move pairG rootMoveP tDead sStart 5
    (some (2, 2)) 0 0 (by intro j hj; show (0 : ℚ) < 10; decide)

/-- The recovery loop leaves the state untouched when it has no `counter`
attribute. -/
lemma ab_recover_no_counter (G : GameI σ μ π) (P : CustomPlayer σ π)
    (u : Util) :
    ∀ (ms : List μ) (s : σ), G.hasCounter s = false →
      (ab_recover G P u ms s).2 = s := by
  intro ms
  induction ms with
  | nil => intro s h; rfl
  | cons m ms ih =>
    intro s h
    unfold ab_recover
    rw [h]
    dsimp only [Bool.false_eq_true, if_false]
    split
    · rfl
    · exact ih s h

/-- Claim C5 (amended): apart from the `counter` bookkeeping, the engine
never mutates the caller's state: for a state WITHOUT the `counter`
attribute, `alphabeta` (the only code path touching the state at all — the
minimax path performs no state update anywhere) returns the state unchanged
for every depth and window.  (With a `counter` attribute present, the
recovery loop's `game.counter[move] -= 1` IS a mutation of an attribute
reachable from the caller's state — see the counterexample.) -/
theorem alphabeta_no_counter_no_mutation (G : GameI σ μ π)
    (P : CustomPlayer σ π) (s : σ) (d : ℕ) (a b : Util)
    (h : G.hasCounter s = false) :
    (alphabetaF G P s d a b).2 = s :=
  ab_recover_no_counter G P (alphabeta_max_value G P s d a b)
    (G.get_legal_moves s) s h

/-- Witness for C5 (amended): the concrete counter-free state is returned
unchanged. -/
theorem alphabeta_no_counter_no_mutation_witness :
    (alphabetaF chainG abP sStart 1 ⊥ ⊤).2 = sStart :=
  alphabeta_no_counter_no_mutation chainG abP sStart 1 ⊥ ⊤ rfl

/-- Claim C6 (counterexample): a deeper search interrupted by cancellation
partway through its root children DOES contaminate the result.  On the
two-move board (`search_depth = 1`, minimax, oracle good for exactly 30
queries): the depth-3 search completes fully (third conjunct: final query
counter 14) and selects `(1,1)` (second conjunct — the last fully completed
depth's move); the depth-4 search then finishes its first root child `(0,0)`
and is cancelled on the second, whereupon `minimax` returns the partial best
`(0,0)`, which overwrites the selection — `get_move` returns `(0,0)`, not
the move `(1,1)` of the last fully completed depth. -/
theorem get_move_interrupted_deeper_search_overwrites :
    get_move pairG rootMoveP tThirty sStart [(0, 0), (1, 1)] 10
      = (Except.ok (GRes.ret (some (0, 0))), [3, 4]) ∧
    minimax pairG rootMoveP sStart 3 = (Util.ofRat 5, some (1, 1)) ∧
    minimaxT pairG rootMoveP tThirty sStart 3 0
      = ((Util.ofRat 5, some (1, 1)), 14) :=
  ⟨rfl, rfl, rfl⟩

/-! ### Bridge: the timed search computes the pure value semantics

When the time oracle never reports a reading below the threshold, the timed
minimax functions return exactly the pure values used in the statements
above (`Timeout` never fires). -/

/-- The timed minimax helpers agree with the pure helpers under a
never-expiring oracle. -/
lemma mmPairT_ok (G : GameI σ μ π) (P : CustomPlayer σ π) (t : ℕ → ℚ)
    (h : ∀ j, ¬ t j < P.TIMER_THRESHOLD) : ∀ (d : ℕ),
    (∀ (s : σ) (k : ℕ), ∃ k', (mmPairT G P t d).1 s k
        = (Except.ok ((mmPair G P d).1 s), k')) ∧
    (∀ (s : σ) (k : ℕ), ∃ k', (mmPairT G P t d).2 s k
        = (Except.ok ((mmPair G P d).2 s), k')) := by
  intro d
  induction d with
  | zero =>
    constructor <;> intro s k <;>
      exact ⟨k + 1, by simp [mmPairT, mmPair, h k]⟩
  | succ e ih =>
    obtain ⟨ihmax, ihmin⟩ := ih
    constructor
    · intro s k
      have hfold : ∀ (ms : List μ) (u : Util) (k0 : ℕ), ∃ k',
          mm_fold_maxT G (mmPairT G P t e).2 s ms u k0
            = (Except.ok (ms.foldl
                (fun x m => max x ((mmPair G P e).2 (G.forecast_move s m))) u),
               k') := by
        intro ms
        induction ms with
        | nil => intro u k0; exact ⟨k0, rfl⟩
        | cons m ms ihms =>
          intro u k0
          rcases ihmin (G.forecast_move s m) k0 with ⟨k1, hc⟩
          rcases ihms (max u ((mmPair G P e).2 (G.forecast_move s m))) k1
            with ⟨k2, hf⟩
          exact ⟨k2, by simp only [mm_fold_maxT, hc, hf, List.foldl_cons]⟩
      rcases hfold (G.get_legal_moves s) ⊥ (k + 1) with ⟨k', hf⟩
      exact ⟨k', by simp only [mmPairT, mmPair, h k, if_false, hf]⟩
    · intro s k
      have hfold : ∀ (ms : List μ) (u : Util) (k0 : ℕ), ∃ k',
          mm_fold_minT G (mmPairT G P t e).1 s ms u k0
            = (Except.ok (ms.foldl
                (fun x m => min x ((mmPair G P e).1 (G.forecast_move s m))) u),
               k') := by
        intro ms
        induction ms with
        | nil => intro u k0; exact ⟨k0, rfl⟩
        | cons m ms ihms =>
          intro u k0
          rcases ihmax (G.forecast_move s m) k0 with ⟨k1, hc⟩
          rcases ihms (min u ((mmPair G P e).1 (G.forecast_move s m))) k1
            with ⟨k2, hf⟩
          exact ⟨k2, by simp only [mm_fold_minT, hc, hf, List.foldl_cons]⟩
      rcases hfold (G.get_legal_moves s) ⊤ (k + 1) with ⟨k', hf⟩
      exact ⟨k', by simp only [mmPairT, mmPair, h k, if_false, hf]⟩

/-- The timed minimax root loop collects all children under a never-failing
child call. -/
lemma mm_rootT_ok (G : GameI σ μ π) (s : σ)
    (childT : σ → ℕ → Except Unit Util × ℕ) (childP : σ → Util)
    (hc : ∀ (c : σ) (k : ℕ), ∃ k', childT c k = (Except.ok (childP c), k')) :
    ∀ (ms : List μ) (acc : List (Util × μ)) (k : ℕ), ∃ k',
      mm_rootT G childT s ms acc k
        = (acc ++ ms.map (fun m => (childP (G.forecast_move s m), m)), k') := by
  intro ms
  induction ms with
  | nil => intro acc k; exact ⟨k, by simp [mm_rootT]⟩
  | cons m ms ih =>
    intro acc k
    rcases hc (G.forecast_move s m) k with ⟨k1, hcm⟩
    rcases ih (acc ++ [(childP (G.forecast_move s m), m)]) k1 with ⟨k2, hf⟩
    exact ⟨k2, by simp only [mm_rootT, hcm, hf, List.map, List.append_assoc,
      List.cons_append, List.nil_append]⟩

/-- The timed `minimax` computes exactly the pure `minimax` result under a
never-expiring oracle: `Timeout` never fires and no branch is dropped. -/
lemma minimaxT_ok (G : GameI σ μ π) (P : CustomPlayer σ π) (t : ℕ → ℚ)
    (h : ∀ j, ¬ t j < P.TIMER_THRESHOLD) (s : σ) (d : ℕ) (k : ℕ) :
    ∃ k', minimaxT G P t s d k = (minimax G P s d, k') := by
  rcases mm_rootT_ok G s (fun c k' => min_valueT G P t c (d - 1) k')
      (fun c => min_value G P c (d - 1))
      (fun c k0 => (mmPairT_ok G P t h (d - 1)).2 c k0)
      (G.get_legal_moves s) [] k with ⟨k', hf⟩
  refine ⟨k', ?_⟩
  unfold minimaxT minimax
  rw [hf, List.nil_append]
  cases (G.get_legal_moves s).map
      (fun m => (min_value G P (G.forecast_move s m) (d - 1), m)) with
  | nil => rfl
  | cons q qs => rfl

/-- The timed `alphabeta` returns the pure `alphabetaF` result whenever its
single root check passes. -/
lemma alphabetaT_ok (G : GameI σ μ π) (P : CustomPlayer σ π) (t : ℕ → ℚ)
    (s : σ) (d : ℕ) (a b : Util) (k : ℕ) (h : ¬ t k < P.TIMER_THRESHOLD) :
    alphabetaT G P t s d a b k = (Except.ok (alphabetaF G P s d a b), k + 1) := by
  unfold alphabetaT
  rw [if_neg h]
